import Mathlib

/-!
Verification of tensor2tensor models/transformer_vae.py.

Scalars are modelled as real numbers; a tensor of positions is a function
Fin p → Fin h → ℝ (position index, then hidden index).  Random draws
(uniform samples, normal samples, dropout masks) and the global-step
dependent decay values computed by common_layers (which lives outside this
file) are passed in as explicit arguments, since the graph consumes them as
opaque tensors.
-/

set_option maxHeartbeats 1000000

namespace TVAE

open Finset

/-! ## mix (transformer_vae.py lines 163-174) -/

/-- Mixing probability of mix: the chosen decay value (linear decay for mode
lin, exponential decay otherwise, both computed by common_layers from the
global step and passed here as values) rescaled into the interval from
min_prob to max_prob. -/
def mixAlpha (lin_decay exp_decay min_prob max_prob : ℝ) (mode : String) : ℝ :=
  (if mode = "lin" then lin_decay else exp_decay) * (max_prob - min_prob) + min_prob

/-- mix from transformer_vae.py: with simple it returns the convex blend,
otherwise it blends elementwise with the indicator of u below alpha_p, where
u is the uniform draw tf.random_uniform produces. -/
noncomputable def mix {n : ℕ} (x1 x2 : Fin n → ℝ)
    (lin_decay exp_decay min_prob max_prob : ℝ)
    (mode : String) (simple : Bool) (u : Fin n → ℝ) : Fin n → ℝ :=
  let alpha_p := mixAlpha lin_decay exp_decay min_prob max_prob mode
  if simple then
    fun i => alpha_p * x1 i + (1 - alpha_p) * x2 i
  else
    fun i => (if u i < alpha_p then (1 : ℝ) else 0) * x1 i
      + (1 - (if u i < alpha_p then (1 : ℝ) else 0)) * x2 i

/-! ## vae (transformer_vae.py lines 112-121) -/

/-- tf.layers.dense: affine projection given a weight matrix and bias. -/
def dense {a b : ℕ} (x : Fin a → ℝ) (w : Fin a → Fin b → ℝ)
    (bias : Fin b → ℝ) : Fin b → ℝ :=
  fun j => (∑ i, x i * w i j) + bias j

/-- vae from transformer_vae.py, per batch of p+1 positions: mu and
log_sigma are dense projections of x to z_size, z is the reparameterized
sample with the standard normal draw epsilon passed in, kl is
0.5 times the mean over the last axis of exp(log_sigma) + mu^2 - 1 -
log_sigma, averaged over positions.  Returns (z, kl, mu, log_sigma). -/
noncomputable def vae {p hd z : ℕ} (x : Fin (p + 1) → Fin hd → ℝ)
    (wmu : Fin hd → Fin (z + 1) → ℝ) (bmu : Fin (z + 1) → ℝ)
    (wls : Fin hd → Fin (z + 1) → ℝ) (bls : Fin (z + 1) → ℝ)
    (eps : Fin (p + 1) → Fin (z + 1) → ℝ) :
    (Fin (p + 1) → Fin (z + 1) → ℝ) × ℝ ×
      (Fin (p + 1) → Fin (z + 1) → ℝ) × (Fin (p + 1) → Fin (z + 1) → ℝ) :=
  let mu := fun pos => dense (x pos) wmu bmu
  let ls := fun pos => dense (x pos) wls bls
  ⟨fun pos j => mu pos j + Real.exp (ls pos j / 2) * eps pos j,
   (∑ pos, (1 / 2 : ℝ) *
      ((∑ j, (Real.exp (ls pos j) + (mu pos j) ^ 2 - 1 - ls pos j)) /
        ((z : ℝ) + 1))) / ((p : ℝ) + 1),
   mu, ls⟩

/-! ## residual_conv (transformer_vae.py lines 35-49) -/

/-- residual_conv from transformer_vae.py: the loop body applies, for each
repeat index i, layer normalization, the convolution block and dropout (each
with per-repeat variables and masks, abstracted as indexed families of
functions on tensors) and adds the result back onto the running value. -/
def residual_conv {n : ℕ} (x : Fin n → ℝ) (rep : ℕ)
    (lnorm conv drop : ℕ → (Fin n → ℝ) → (Fin n → ℝ)) : Fin n → ℝ :=
  (List.range rep).foldl (fun cur i => cur + drop i (conv i (lnorm i cur))) x

/-! ## gumbel_sample (transformer_vae.py lines 90-93) -/

/-- gumbel_sample from transformer_vae.py, elementwise: the double negative
logarithm of a uniform sample drawn from the interval between 0.00001 and
0.99998. -/
noncomputable def gumbel_sample (u : ℝ) : ℝ := -Real.log (-Real.log u)

/-! ## Claim theorems for C3, C4, C7, C8 -/

/-- C3: the annealed blending schedule mixes from x2 toward x1.  The mixing
probability alpha_p is the chosen decay rescaled to the interval from
min_prob to max_prob; with simple the result is exactly
alpha_p * x1 + (1 - alpha_p) * x2; without simple each element equals the
element of x1 when the uniform draw is below alpha_p and the element of x2
otherwise; when alpha_p = 0 the simple result is x2 and when alpha_p = 1
it is x1. -/
theorem C3_mix {n : ℕ} (x1 x2 u : Fin n → ℝ)
    (ld ed mp xp : ℝ) (mode : String) :
    (mix x1 x2 ld ed mp xp mode true u
      = fun i => mixAlpha ld ed mp xp mode * x1 i
          + (1 - mixAlpha ld ed mp xp mode) * x2 i)
    ∧ (∀ i, mix x1 x2 ld ed mp xp mode false u i
        = if u i < mixAlpha ld ed mp xp mode then x1 i else x2 i)
    ∧ (mixAlpha ld ed mp xp mode = 0 →
        mix x1 x2 ld ed mp xp mode true u = x2)
    ∧ (mixAlpha ld ed mp xp mode = 1 →
        mix x1 x2 ld ed mp xp mode true u = x1) := by
  refine ⟨by simp [mix], fun i => ?_, fun h0 => ?_, fun h1 => ?_⟩
  · by_cases hc : u i < mixAlpha ld ed mp xp mode <;> simp [mix, hc]
  · funext i; simp [mix, h0]
  · funext i; simp [mix, h1]

/-- C3 witness: with zero decay and a degenerate probability interval the
mixing probability is 0 and the simple mix returns x2 exactly. -/
theorem C3_mix_witness :
    mix (fun _ : Fin 1 => (2 : ℝ)) (fun _ => 3) 0 0 0 0 "lin" true (fun _ => 1)
      = (fun _ => 3) :=
  (C3_mix (fun _ : Fin 1 => (2 : ℝ)) (fun _ => 3) (fun _ => 1)
    0 0 0 0 "lin").2.2.1 (by simp [mixAlpha])

/-- C4: vae is the standard reparameterization: z equals
mu + exp(log_sigma / 2) * epsilon where mu and log_sigma are the two dense
projections of x, and the KL term equals the mean over all elements of
0.5 * (exp(log_sigma) + mu^2 - 1 - log_sigma). -/
theorem C4_vae {p hd z : ℕ} (x : Fin (p + 1) → Fin hd → ℝ)
    (wmu : Fin hd → Fin (z + 1) → ℝ) (bmu : Fin (z + 1) → ℝ)
    (wls : Fin hd → Fin (z + 1) → ℝ) (bls : Fin (z + 1) → ℝ)
    (eps : Fin (p + 1) → Fin (z + 1) → ℝ) :
    ((vae x wmu bmu wls bls eps).2.2.1 = fun pos => dense (x pos) wmu bmu)
    ∧ ((vae x wmu bmu wls bls eps).2.2.2 = fun pos => dense (x pos) wls bls)
    ∧ ((vae x wmu bmu wls bls eps).1 = fun pos j =>
        dense (x pos) wmu bmu j
          + Real.exp (dense (x pos) wls bls j / 2) * eps pos j)
    ∧ ((vae x wmu bmu wls bls eps).2.1 =
        (∑ pos, ∑ j, (1 / 2 : ℝ) *
            (Real.exp (dense (x pos) wls bls j)
              + (dense (x pos) wmu bmu j) ^ 2 - 1 - dense (x pos) wls bls j))
          / (((p : ℝ) + 1) * ((z : ℝ) + 1))) := by
  refine ⟨rfl, rfl, rfl, ?_⟩
  show (∑ pos, (1 / 2 : ℝ) * ((∑ j, _) / ((z : ℝ) + 1))) / ((p : ℝ) + 1) = _
  have hstep : ∀ pos : Fin (p + 1),
      (1 / 2 : ℝ) *
        ((∑ j, (Real.exp (dense (x pos) wls bls j)
            + (dense (x pos) wmu bmu j) ^ 2 - 1 - dense (x pos) wls bls j)) /
          ((z : ℝ) + 1))
      = (∑ j, (1 / 2 : ℝ) *
          (Real.exp (dense (x pos) wls bls j)
            + (dense (x pos) wmu bmu j) ^ 2 - 1 - dense (x pos) wls bls j)) /
          ((z : ℝ) + 1) := by
    intro pos
    rw [← mul_div_assoc, Finset.mul_sum]
  simp only [hstep]
  rw [← Finset.sum_div, div_div, mul_comm ((z : ℝ) + 1) ((p : ℝ) + 1)]

/-- C7: residual_conv is an iterated additive residual: zero repeats return
x unchanged, and repeat r + 1 equals the result of r repeats plus the
dropout of the convolution block of the layer normalization of that
result. -/
theorem C7_residual_conv {n : ℕ} (x : Fin n → ℝ)
    (lnorm conv drop : ℕ → (Fin n → ℝ) → (Fin n → ℝ)) :
    residual_conv x 0 lnorm conv drop = x
    ∧ (∀ r, residual_conv x (r + 1) lnorm conv drop
        = residual_conv x r lnorm conv drop
          + drop r (conv r (lnorm r (residual_conv x r lnorm conv drop)))) := by
  constructor
  · rfl
  · intro r
    unfold residual_conv
    rw [List.range_succ, List.foldl_append]
    rfl

/-- C8: gumbel samples are always finite.  Any uniform sample from the
clipped interval is strictly positive and strictly below one, so the inner
logarithm is strictly negative, its negation is strictly positive, and both
logarithms in gumbel_sample are taken at strictly positive arguments. -/
theorem C8_gumbel_sample (u : ℝ) (h1 : 0.00001 ≤ u) (h2 : u ≤ 0.99998) :
    0 < u ∧ Real.log u < 0 ∧ 0 < -Real.log u ∧
      gumbel_sample u = -Real.log (-Real.log u) := by
  have hu0 : (0 : ℝ) < u := lt_of_lt_of_le (by norm_num) h1
  have hu1 : u < 1 := lt_of_le_of_lt h2 (by norm_num)
  have hl : Real.log u < 0 := Real.log_neg hu0 hu1
  exact ⟨hu0, hl, by linarith, rfl⟩

/-- C8 witness: the sample one half lies in the clipped interval and
satisfies the conclusion. -/
theorem C8_gumbel_sample_witness :
    0 < (1 / 2 : ℝ) ∧ Real.log (1 / 2) < 0 ∧ 0 < -Real.log (1 / 2) ∧
      gumbel_sample (1 / 2) = -Real.log (-Real.log (1 / 2)) :=
  C8_gumbel_sample (1 / 2) (by norm_num) (by norm_num)

/-! ## nearest and kmeans (transformer_vae.py lines 124-143)

tf.nn.top_k with k = 1 returns the index of the largest entry and, on
ties, the lowest such index; tf.argmax ties the same way.  Both are
modelled by a left fold that replaces the running best index only on a
strictly larger value. -/

/-- One comparison step of the top-k scan: keep the running best index
unless the candidate scores strictly higher. -/
noncomputable def argmaxStep {v : ℕ} (f : Fin v → ℝ) (best j : Fin v) : Fin v :=
  if f best < f j then j else best

/-- Index of the largest value of f, lowest index on ties, as tf.nn.top_k
with k = 1 and tf.argmax compute it. -/
noncomputable def argmaxIdx {v : ℕ} (f : Fin (v + 1) → ℝ) : Fin (v + 1) :=
  (List.finRange (v + 1)).foldl (argmaxStep f) 0

/-- tf.one_hot: one at the given index, zero elsewhere. -/
def oneHot {v : ℕ} (ix : Fin v) : Fin v → ℝ :=
  fun i => if i = ix then 1 else 0

theorem argmax_foldl_le {v : ℕ} (f : Fin (v + 1) → ℝ) :
    ∀ (l : List (Fin (v + 1))) (b : Fin (v + 1)),
      f b ≤ f (l.foldl (argmaxStep f) b)
      ∧ ∀ j ∈ l, f j ≤ f (l.foldl (argmaxStep f) b) := by
  intro l
  induction l with
  | nil => intro b; exact ⟨le_refl _, by simp⟩
  | cons a t ih =>
    intro b
    simp only [List.foldl_cons]
    have hstep : f b ≤ f (argmaxStep f b a) ∧ f a ≤ f (argmaxStep f b a) := by
      unfold argmaxStep
      by_cases hc : f b < f a
      · simp [hc, le_of_lt hc]
      · simp [hc, le_of_not_lt hc]
    obtain ⟨ihb, iht⟩ := ih (argmaxStep f b a)
    refine ⟨le_trans hstep.1 ihb, ?_⟩
    intro j hj
    rcases List.mem_cons.mp hj with hja | hjt
    · subst hja; exact le_trans hstep.2 ihb
    · exact iht j hjt

theorem argmaxIdx_le {v : ℕ} (f : Fin (v + 1) → ℝ) (j : Fin (v + 1)) :
    f j ≤ f (argmaxIdx f) :=
  (argmax_foldl_le f (List.finRange (v + 1)) 0).2 j (List.mem_finRange j)

theorem argmaxIdx_unique {v : ℕ} (f : Fin (v + 1) → ℝ) (x : Fin (v + 1))
    (hx : ∀ j, j ≠ x → f j < f x) : argmaxIdx f = x := by
  by_contra hne
  exact absurd (argmaxIdx_le f x) (not_le.mpr (hx _ hne))

theorem argmaxIdx_oneHot {v : ℕ} (ix : Fin (v + 1)) :
    argmaxIdx (oneHot ix) = ix := by
  refine argmaxIdx_unique _ ix (fun j hj => ?_)
  simp only [oneHot, if_pos rfl, if_neg hj]
  norm_num

/-- tf.nn.l2_normalize along the last axis, with the default epsilon
1e-12 guarding the division: each row is divided by the square root of the
maximum of its summed squares and epsilon. -/
noncomputable def l2_normalize_row {hd : ℕ} (m : Fin hd → ℝ) : Fin hd → ℝ :=
  fun j => m j / Real.sqrt (max (∑ i, m i ^ 2) 1e-12)

/-- Inner product of two hidden-size vectors. -/
def dotp {hd : ℕ} (a b : Fin hd → ℝ) : ℝ := ∑ i, a i * b i

/-- The matrix dist of nearest: minus the matmul of the flattened x with
the transposed l2-normalized means, at one position and one mean index. -/
noncomputable def nearest_dist {hd v : ℕ} (x : Fin hd → ℝ)
    (means : Fin (v + 1) → Fin hd → ℝ) (i : Fin (v + 1)) : ℝ :=
  -(dotp x (l2_normalize_row (means i)))

/-- The index tf.nn.top_k(- dist, k = 1) selects for one position. -/
noncomputable def nearestIdx {hd v : ℕ} (x : Fin hd → ℝ)
    (means : Fin (v + 1) → Fin hd → ℝ) : Fin (v + 1) :=
  argmaxIdx (fun i => -(nearest_dist x means i))

/-- nearest from transformer_vae.py: per position, the one-hot vector over
v_size at the index top_k selects (stop_gradient does not change values
and is dropped). -/
noncomputable def nearest {p hd v : ℕ} (x : Fin p → Fin hd → ℝ)
    (means : Fin (v + 1) → Fin hd → ℝ) : Fin p → Fin (v + 1) → ℝ :=
  fun pos => oneHot (nearestIdx (x pos) means)

/-- kmeans from transformer_vae.py: the one-hot assignment from nearest,
and ten times the mean over positions of the summed squared difference
between x and the mean rows gathered at the argmax of the assignment. -/
noncomputable def kmeans {p hd v : ℕ} (x : Fin (p + 1) → Fin hd → ℝ)
    (means : Fin (v + 1) → Fin hd → ℝ) :
    (Fin (p + 1) → Fin (v + 1) → ℝ) × ℝ :=
  let x_means_hot := nearest x means
  let x_means := fun pos => means (argmaxIdx (x_means_hot pos))
  ⟨x_means_hot,
   (∑ pos, ∑ j, (x pos j - x_means pos j) ^ 2) / ((p : ℝ) + 1) * 10⟩

/-- C1: vector quantization is nearest-neighbor assignment.  For every
position, nearest returns the one-hot vector at an index whose inner
product with the l2-normalized rows of means is maximal (the index top_k
of the negated distance selects), and the kmeans loss equals ten times the
mean over positions of the summed squared difference between x and the
selected mean rows. -/
theorem C1_nearest_kmeans {p hd v : ℕ} (x : Fin (p + 1) → Fin hd → ℝ)
    (means : Fin (v + 1) → Fin hd → ℝ) :
    (∀ pos i, dotp (x pos) (l2_normalize_row (means i))
        ≤ dotp (x pos) (l2_normalize_row (means (nearestIdx (x pos) means))))
    ∧ (∀ pos, (kmeans x means).1 pos = oneHot (nearestIdx (x pos) means))
    ∧ ((kmeans x means).2 = 10 *
        ((∑ pos, ∑ j, (x pos j - means (nearestIdx (x pos) means) j) ^ 2)
          / ((p : ℝ) + 1))) := by
  refine ⟨fun pos i => ?_, fun pos => rfl, ?_⟩
  · have h := argmaxIdx_le (fun i => -(nearest_dist (x pos) means i)) i
    simpa [nearest_dist, nearestIdx] using h
  · show (∑ pos, ∑ j,
        (x pos j - means (argmaxIdx (nearest x means pos)) j) ^ 2)
          / ((p : ℝ) + 1) * 10 = _
    have hix : ∀ pos : Fin (p + 1),
        argmaxIdx (nearest x means pos) = nearestIdx (x pos) means := by
      intro pos
      exact argmaxIdx_oneHot (nearestIdx (x pos) means)
    simp only [hix]
    ring

/-! ## ae_embed versus the kmeans gather (transformer_vae.py 230-238) -/

/-- The matmul embedding path of ae_embed before the final dense layer:
the flattened one-hot tensor times the means table. -/
def ae_embed_matmul {p hd v : ℕ} (hot : Fin p → Fin (v + 1) → ℝ)
    (means : Fin (v + 1) → Fin hd → ℝ) : Fin p → Fin hd → ℝ :=
  fun pos j => ∑ i, hot pos i * means i j

/-- The gather-based quantization path of kmeans: the mean row at the
argmax of the assignment. -/
noncomputable def kmeans_gather {p hd v : ℕ} (hot : Fin p → Fin (v + 1) → ℝ)
    (means : Fin (v + 1) → Fin hd → ℝ) : Fin p → Fin hd → ℝ :=
  fun pos => means (argmaxIdx (hot pos))

/-- C6: on one-hot inputs the matmul embedding of ae_embed selects exactly
the rows that the gather of kmeans selects, so both paths compute the same
mean vectors before the final dense layer. -/
theorem C6_ae_embed_matmul_eq_gather {p hd v : ℕ}
    (hot : Fin p → Fin (v + 1) → ℝ) (means : Fin (v + 1) → Fin hd → ℝ)
    (hhot : ∀ pos, ∃ ix, hot pos = oneHot ix) :
    ae_embed_matmul hot means = kmeans_gather hot means := by
  funext pos j
  obtain ⟨ix, hix⟩ := hhot pos
  rw [ae_embed_matmul, kmeans_gather, hix, argmaxIdx_oneHot]
  simp only [oneHot, ite_mul, one_mul, zero_mul]
  rw [Finset.sum_ite_eq' Finset.univ ix (fun i => means i j)]
  simp

/-! ## Length bookkeeping of compress and ae_decompress
(transformer_vae.py lines 146-160, 254-260, 288-296)

These model only the length dimension of the tensors flowing through
ae_transformer_internal. -/

/-- Modelled from the spec: common_layers.pad_to_same_length with
final_length_divisible_by, which is not under src.  Applied to targets
against itself, it pads the length dimension up to the next multiple of
the divisor k. -/
def pad_length (k len : ℕ) : ℕ := len + (k - len % k) % k

/-- The length dimension after the stride-2 (2, 1) convolutions of
compress: each of the n steps applies one strided convolution with SAME
padding, mapping length L to the ceiling of L / 2. -/
def compress_length : ℕ → ℕ → ℕ
  | 0, len => len
  | n + 1, len => compress_length n ((len + 1) / 2)

/-- The length dimension after the n doubling decompress_step calls of
ae_decompress (each reshapes length L to 2 L in the 1d case). -/
def decompress_length (n len : ℕ) : ℕ := len * 2 ^ n

theorem pad_length_dvd (k len : ℕ) (hk : 0 < k) : k ∣ pad_length k len := by
  unfold pad_length
  by_cases h : len % k = 0
  · simpa [h] using Nat.dvd_of_mod_eq_zero h
  · have hlt : k - len % k < k := by
      have := Nat.mod_lt len hk
      omega
    rw [Nat.mod_eq_of_lt hlt]
    have hdm : k * (len / k) + len % k = len := Nat.div_add_mod len k
    have hle : len % k ≤ k := le_of_lt (Nat.mod_lt len hk)
    refine ⟨len / k + 1, ?_⟩
    calc len + (k - len % k)
        = k * (len / k) + len % k + (k - len % k) := by rw [hdm]
      _ = k * (len / k) + k := by omega
      _ = k * (len / k + 1) := by rw [Nat.mul_succ]

theorem compress_length_exact (n : ℕ) :
    ∀ q, compress_length n (q * 2 ^ n) = q := by
  induction n with
  | zero => intro q; simp [compress_length]
  | succ m ih =>
    intro q
    have h2 : q * 2 ^ (m + 1) = q * 2 ^ m * 2 := by ring
    have harg : (q * 2 ^ m * 2 + 1) / 2 = q * 2 ^ m := by omega
    rw [compress_length, h2, harg, ih q]

/-- C9: divisibility invariant of compression.  Padding makes the target
length divisible by 2 to the num_compress_steps; every intermediate length
fed to a stride-2 compression convolution is even; and the doubling steps
of ae_decompress restore exactly the padded length. -/
theorem C9_compress_divisibility (n len : ℕ) :
    2 ^ n ∣ pad_length (2 ^ n) len
    ∧ (∀ i, i < n → 2 ∣ compress_length i (pad_length (2 ^ n) len))
    ∧ decompress_length n (compress_length n (pad_length (2 ^ n) len))
      = pad_length (2 ^ n) len := by
  obtain ⟨q, hq⟩ := pad_length_dvd (2 ^ n) len (Nat.pos_pow_of_pos n (by norm_num))
  have hq2 : pad_length (2 ^ n) len = q * 2 ^ n := by rw [hq, mul_comm]
  refine ⟨⟨q, hq⟩, fun i hi => ?_, ?_⟩
  · have hsplit : pad_length (2 ^ n) len = (q * 2 ^ (n - i)) * 2 ^ i := by
      rw [hq2, mul_assoc, ← pow_add]
      congr 2
      omega
    rw [hsplit, compress_length_exact i]
    exact ⟨q * 2 ^ (n - i - 1), by rw [mul_comm 2 _, mul_assoc]; congr 1; rw [← pow_succ]; congr 1; omega⟩
  · rw [hq2, compress_length_exact n, decompress_length]

/-- C9 witness: with the default four compression steps and an input
length of five positions, the padded length sixteen is divisible by
sixteen, every intermediate length is even, and decompression restores
sixteen. -/
theorem C9_witness :
    2 ^ 4 ∣ pad_length (2 ^ 4) 5
    ∧ (∀ i, i < 4 → 2 ∣ compress_length i (pad_length (2 ^ 4) 5))
    ∧ decompress_length 4 (compress_length 4 (pad_length (2 ^ 4) 5))
      = pad_length (2 ^ 4) 5 :=
  C9_compress_divisibility 4 5

/-! ## TransformerAE.infer (transformer_vae.py lines 327-362)

Only the feature-dictionary manipulation is modelled: tensors carry a
shape and an abstract payload, and the three feature keys the method
touches are fields of a structure.  The body of model_fn together with
the argmax sampling is abstracted into one function from features to a
samples tensor, applied once and then twice more as in the source. -/

structure Tensor where
  shape : List ℕ
  payload : ℕ
deriving DecidableEq

/-- Insert a dimension of size one at the given axis, as tf.expand_dims
does. -/
def insertAxis : List ℕ → ℕ → List ℕ
  | l, 0 => 1 :: l
  | [], _ + 1 => [1]
  | a :: l, n + 1 => a :: insertAxis l n

/-- tf.expand_dims on the shape, keeping the payload. -/
def expand_dims (t : Tensor) (axis : ℕ) : Tensor :=
  ⟨insertAxis t.shape axis, t.payload⟩

/-- The feature dictionary keys infer reads or writes: inputs, targets and
the partial targets feature. -/
structure Features where
  inputs : Option Tensor
  targets : Option Tensor
  ptargets : Option Tensor
deriving DecidableEq

/-- tf.zeros((batch_size, 1, 1, 1)): the initial targets tensor. -/
def zeros4 (batch : ℕ) : Tensor := ⟨[batch, 1, 1, 1], 0⟩

/-- TransformerAE.infer from transformer_vae.py: replace a low-rank inputs
tensor by its expanded version, build the initial targets, run the model
once and then two more times feeding the samples back as targets, and
restore the saved inputs tensor before returning.  Returns none exactly
when the source would fail looking up features at inputs (no inputs and
no partial targets).  modelFn abstracts model_fn plus the argmax and
concat of the sharded samples. -/
def infer (features0 : Option Features)
    (modelFn : Features → Tensor) : Option (Features × Tensor) :=
  let features := features0.getD ⟨none, none, none⟩
  let saved := match features.inputs with
    | some t => if t.shape.length < 4 then some t else none
    | none => none
  let featuresE := match saved with
    | some t => { features with inputs := some (expand_dims t 2) }
    | none => features
  let init := match featuresE.ptargets with
    | some pt => some pt
    | none => match featuresE.inputs with
      | some t => some (zeros4 (t.shape.headD 0))
      | none => none
  match init with
  | none => none
  | some initial_output =>
    let features1 := { featuresE with targets := some initial_output }
    let samples1 := modelFn features1
    let features2 := { features1 with targets := some samples1 }
    let samples2 := modelFn features2
    let features3 := { features2 with targets := some samples2 }
    let samples3 := modelFn features3
    let featuresR := match saved with
      | some t => { features3 with inputs := some t }
      | none => features3
    some (featuresR, samples3)

/-- C10: infer leaves the caller features unchanged at the inputs key:
whenever infer returns, the inputs entry of the returned feature
dictionary equals the inputs entry the caller passed in, whether or not
it was temporarily replaced by an expanded-dimensions version. -/
theorem C10_infer_inputs_frame (f : Features) (modelFn : Features → Tensor)
    (r : Features × Tensor) (h : infer (some f) modelFn = some r) :
    r.1.inputs = f.inputs := by
  obtain ⟨fin, ftg, fpt⟩ := f
  rcases fin with _ | t <;> rcases fpt with _ | pt
  · simp [infer] at h
  · simp only [infer, Option.getD_some] at h
    rw [Option.some_inj] at h
    rw [← h]
  · by_cases hlen : t.shape.length < 4 <;>
      simp only [infer, Option.getD_some, hlen, if_true, if_false] at h <;>
      rw [Option.some_inj] at h <;> rw [← h]
  · by_cases hlen : t.shape.length < 4 <;>
      simp only [infer, Option.getD_some, hlen, if_true, if_false] at h <;>
      rw [Option.some_inj] at h <;> rw [← h]

/-- A concrete feature dictionary with a rank-two inputs tensor, used in
the C10 witness. -/
def w10_feats : Features := ⟨some ⟨[3, 7], 5⟩, none, none⟩

/-- A concrete abstraction of the model function, used in the C10
witness. -/
def w10_model : Features → Tensor := fun _ => ⟨[1, 1, 1, 1], 9⟩

/-- The concrete result of infer on the C10 witness input. -/
def w10_pair : Features × Tensor :=
  (⟨some ⟨[3, 7], 5⟩, some ⟨[1, 1, 1, 1], 9⟩, none⟩, ⟨[1, 1, 1, 1], 9⟩)

/-- C10 witness: on the concrete input the call returns and the inputs
entry is unchanged. -/
theorem C10_witness : w10_pair.1.inputs = w10_feats.inputs :=
  C10_infer_inputs_frame w10_feats w10_model w10_pair (by decide)

/-! ## decode (transformer_vae.py lines 187-198)

The gold targets live on m + 1 positions with hidden vectors in
Fin hd → ℝ.  The dropout on gold is elementwise, hence modelled as a
per-position function of the gold value at that position; the timing
signal depends only on the position. -/

/-- common_layers.shift_right on the length axis, which is not under src.
Modelled from the spec: position zero receives the pad value cond_vec and
every later position receives the previous gold value. -/
def shift_right {m hd : ℕ} (padv : Fin hd → ℝ)
    (g : Fin (m + 1) → Fin hd → ℝ) : Fin (m + 1) → Fin hd → ℝ :=
  fun i => if h : (i : ℕ) = 0 then padv else g ⟨(i : ℕ) - 1, by omega⟩

/-- The decoder input decode builds: dropout applied to gold, shifted
right with cond_vec as the pad value, plus the optional cond_add tensor,
plus the position-only timing signal. -/
def decode_input {m hd : ℕ} (cond_vec : Fin hd → ℝ)
    (cond_add : Option (Fin (m + 1) → Fin hd → ℝ))
    (dmask : Fin (m + 1) → (Fin hd → ℝ) → (Fin hd → ℝ))
    (timing : Fin (m + 1) → Fin hd → ℝ)
    (gold : Fin (m + 1) → Fin hd → ℝ) : Fin (m + 1) → Fin hd → ℝ :=
  let drop_gold := fun i => dmask i (gold i)
  let di := shift_right cond_vec drop_gold
  let di2 := match cond_add with
    | none => di
    | some ca => fun i j => di i j + ca i j
  fun i j => di2 i j + timing i j

/-- The view of the decoder input that the lower-triangular attention bias
exposes at query position i: the input at key positions up to i, and
nothing beyond. -/
def maskedView {m : ℕ} {V : Type} (inp : Fin (m + 1) → V) (i : Fin (m + 1)) :
    Fin (m + 1) → Option V :=
  fun j => if (j : ℕ) ≤ (i : ℕ) then some (inp j) else none

/-- Modelled from the spec: transformer.transformer_decoder, which is not
under src, applied with the lower-triangular self-attention bias that
decode builds.  Each output position is an arbitrary function F (holding
the attention and feed-forward weights and the encoder output) of the
masked view of the decoder input at that position. -/
def causal_decoder {m hd : ℕ} {W : Type}
    (F : Fin (m + 1) → (Fin (m + 1) → Option (Fin hd → ℝ)) → W)
    (inp : Fin (m + 1) → Fin hd → ℝ) : Fin (m + 1) → W :=
  fun i => F i (maskedView inp i)

/-- decode from transformer_vae.py: the causal decoder applied to the
shifted, conditioned and timed decoder input. -/
def decode {m hd : ℕ} {W : Type}
    (F : Fin (m + 1) → (Fin (m + 1) → Option (Fin hd → ℝ)) → W)
    (cond_vec : Fin hd → ℝ) (cond_add : Option (Fin (m + 1) → Fin hd → ℝ))
    (dmask : Fin (m + 1) → (Fin hd → ℝ) → (Fin hd → ℝ))
    (timing : Fin (m + 1) → Fin hd → ℝ)
    (gold : Fin (m + 1) → Fin hd → ℝ) : Fin (m + 1) → W :=
  causal_decoder F (decode_input cond_vec cond_add dmask timing gold)

/-- C5: autoregressive decoding is causal.  If two gold tensors agree at
every position strictly below i, then decode produces the same output at
position i: the output at i is independent of the gold values at
positions i and later. -/
theorem C5_decode_causal {m hd : ℕ} {W : Type}
    (F : Fin (m + 1) → (Fin (m + 1) → Option (Fin hd → ℝ)) → W)
    (cond_vec : Fin hd → ℝ) (cond_add : Option (Fin (m + 1) → Fin hd → ℝ))
    (dmask : Fin (m + 1) → (Fin hd → ℝ) → (Fin hd → ℝ))
    (timing : Fin (m + 1) → Fin hd → ℝ)
    (gold gold2 : Fin (m + 1) → Fin hd → ℝ) (i : Fin (m + 1))
    (hagree : ∀ j : Fin (m + 1), (j : ℕ) < (i : ℕ) → gold j = gold2 j) :
    decode F cond_vec cond_add dmask timing gold i
      = decode F cond_vec cond_add dmask timing gold2 i := by
  unfold decode causal_decoder
  congr 1
  funext j
  unfold maskedView
  by_cases hji : (j : ℕ) ≤ (i : ℕ)
  · simp only [hji, if_pos, if_true]
    congr 1
    unfold decode_input shift_right
    by_cases hj0 : (j : ℕ) = 0
    · cases cond_add <;> simp [hj0]
    · have hlt : (j : ℕ) - 1 < (i : ℕ) := by omega
      have hg : gold ⟨(j : ℕ) - 1, by omega⟩ = gold2 ⟨(j : ℕ) - 1, by omega⟩ :=
        hagree _ hlt
      cases cond_add <;> simp [hj0, hg]
  · simp [hji]

/-- A concrete attention abstraction used in the C5 witness: return the
value visible at key position zero. -/
def w5_F : Fin 2 → (Fin 2 → Option (Fin 1 → ℝ)) → (Fin 1 → ℝ) :=
  fun _ g => (g 0).getD (fun _ => 0)

/-- The two gold tensors of the C5 witness differ only at position one. -/
def w5_gold : Fin 2 → Fin 1 → ℝ := fun i _ => if i = 0 then 5 else 6
def w5_gold2 : Fin 2 → Fin 1 → ℝ := fun i _ => if i = 0 then 5 else 7

/-- C5 witness: changing gold only at position one leaves the decode
output at position one unchanged. -/
theorem C5_witness :
    decode w5_F (fun _ => 1) none (fun _ v => v) (fun _ _ => 0) w5_gold 1
      = decode w5_F (fun _ => 1) none (fun _ v => v) (fun _ _ => 0) w5_gold2 1 :=
  C5_decode_causal w5_F (fun _ => 1) none (fun _ v => v) (fun _ _ => 0)
    w5_gold w5_gold2 1
    (fun j hj => by
      match j with
      | ⟨0, _⟩ => rfl
      | ⟨1, _⟩ => simp at hj)

/-! ## Operation trace of ae_transformer_internal
(transformer_vae.py lines 285-316)

To settle which model functions the training graph applies, each function
of the module is mirrored by the list of operations its body emits, in
source order; calls emit the trace of the callee.  A function is part of
the computation graph of ae_transformer_internal exactly when its tag
appears in the trace. -/

inductive Op where
  | padToSameLength | flatten4d3d | prepareEncoder | dropoutOp
  | transformerEncoderOp | layerNormOp | convBlockOp | addResidualOp
  | attendBlock | timingSignalOp | multiheadAttentionOp | layerPreOp
  | layerPostOp | denseLayer | logSoftmaxOp | gumbelSampleOp | softmaxOp
  | daeOp | randomNormalOp | vaeOp | stopGradientOp | l2NormalizeOp
  | matmulOp | topKOp | oneHotOp | nearestOp | gatherOp | argmaxOp
  | kmeansOp | stridedConvOp | compressBlock | mixOp | randomUniformOp
  | condOp | decompressConvOp | depthToSpaceOp | reshapeOp | shiftRightOp
  | lowerTriangleBiasOp | transformerDecoderOp | decodeBlock
  | softmaxXentOp | aeCompressBlock | aeEmbedBlock | aeDecompressBlock
  | encodeBlock
deriving DecidableEq

inductive TMode where
  | train | predict | evalM
deriving DecidableEq

/-- The hyperparameters that steer the control flow of
ae_transformer_internal. -/
structure HParamsG where
  num_compress_steps : ℕ
  is_2d : Bool
  mode : TMode
deriving DecidableEq

/-- n concatenated copies of a list: the trace of a loop whose body emits
the same operations on every iteration (the per-iteration variable scopes
differ only in name). -/
def repList {α : Type} : ℕ → List α → List α
  | 0, _ => []
  | n + 1, l => l ++ repList n l

/-- The trace of residual_conv with the given repeat count. -/
def residual_conv_trace (rep : ℕ) : List Op :=
  repList rep [.layerNormOp, .convBlockOp, .dropoutOp, .addResidualOp]

/-- The trace of attend. -/
def attend_trace : List Op :=
  [.attendBlock, .timingSignalOp, .layerPreOp, .multiheadAttentionOp,
   .layerPostOp]

/-- The trace of decompress_step with c = None, as ae_decompress calls
it. -/
def decompress_step_trace (is_2d : Bool) : List Op :=
  [.decompressConvOp, .convBlockOp]
    ++ if is_2d then [.depthToSpaceOp] else [.reshapeOp]

/-- The trace of dae: dense, log_softmax, the Gumbel sample, and the two
softmax applications. -/
def dae_trace : List Op :=
  [.daeOp, .denseLayer, .logSoftmaxOp, .gumbelSampleOp, .softmaxOp,
   .softmaxOp]

/-- The trace of vae: the two dense projections and the normal sample. -/
def vae_trace : List Op :=
  [.vaeOp, .denseLayer, .denseLayer, .randomNormalOp]

/-- The trace of nearest. -/
def nearest_trace : List Op :=
  [.nearestOp, .stopGradientOp, .l2NormalizeOp, .matmulOp, .topKOp,
   .oneHotOp]

/-- The trace of kmeans. -/
def kmeans_trace : List Op :=
  [.kmeansOp] ++ nearest_trace ++ [.argmaxOp, .gatherOp]

/-- The trace of compress with c = None, as ae_compress calls it: each of
the num_compress_steps iterations runs residual_conv with one repeat and
the strided convolution block. -/
def compress_trace (num_compress_steps : ℕ) : List Op :=
  [.compressBlock]
    ++ repList num_compress_steps (residual_conv_trace 1 ++ [.stridedConvOp])

/-- The trace of encode. -/
def encode_trace : List Op :=
  [.encodeBlock, .prepareEncoder, .dropoutOp, .transformerEncoderOp]

/-- The trace of decode. -/
def decode_trace : List Op :=
  [.decodeBlock, .dropoutOp, .shiftRightOp, .timingSignalOp,
   .lowerTriangleBiasOp, .transformerDecoderOp]

/-- The trace of ae_compress. -/
def ae_compress_trace (hp : HParamsG) : List Op :=
  [.aeCompressBlock] ++ compress_trace hp.num_compress_steps
    ++ [.convBlockOp, .l2NormalizeOp] ++ kmeans_trace ++ [.denseLayer]

/-- The trace of ae_embed. -/
def ae_embed_trace : List Op := [.aeEmbedBlock, .matmulOp, .denseLayer]

/-- The trace of ae_decompress: the mix leak, the random cond between z
and ae, dropout, the decompression loop, and the autoregressive decode
(or the final dense layer in the 2d case). -/
def ae_decompress_trace (hp : HParamsG) : List Op :=
  [.aeDecompressBlock, .mixOp, .randomUniformOp, .condOp, .dropoutOp]
    ++ repList hp.num_compress_steps
        (residual_conv_trace 1 ++ decompress_step_trace hp.is_2d)
    ++ if hp.is_2d then [.denseLayer] else decode_trace

/-- The trace of ae_transformer_internal: pad, flatten, encode, compress
and quantize, embed the code, run the context decoder and the
reconstruction loss, optionally replace the code by the prediction, and
decompress. -/
def ae_transformer_internal_trace (hp : HParamsG) : List Op :=
  [.padToSameLength, .flatten4d3d] ++ encode_trace
    ++ ae_compress_trace hp ++ ae_embed_trace
    ++ decode_trace ++ [.denseLayer, .softmaxXentOp]
    ++ (if hp.mode = TMode.predict then [.argmaxOp, .oneHotOp] else [])
    ++ ae_decompress_trace hp

/-- The operations ae_transformer_internal never applies: the tags of dae
and vae. -/
abbrev banP (x : Op) : Prop := x ≠ Op.daeOp ∧ x ≠ Op.vaeOp

theorem ban_append {p : Op → Prop} {l1 l2 : List Op}
    (h1 : ∀ x ∈ l1, p x) (h2 : ∀ x ∈ l2, p x) : ∀ x ∈ l1 ++ l2, p x := by
  intro x hx
  rcases List.mem_append.mp hx with h | h
  · exact h1 x h
  · exact h2 x h

theorem repList_forall {α : Type} (p : α → Prop) (n : ℕ) (l : List α)
    (h : ∀ x ∈ l, p x) : ∀ x ∈ repList n l, p x := by
  induction n with
  | zero => intro x hx; simp [repList] at hx
  | succ m ih =>
    intro x hx
    rw [repList] at hx
    rcases List.mem_append.mp hx with h1 | h2
    · exact h x h1
    · exact ih x h2

theorem ban_compress (n : ℕ) : ∀ x ∈ compress_trace n, banP x :=
  ban_append (by decide)
    (repList_forall banP n (residual_conv_trace 1 ++ [Op.stridedConvOp])
      (by decide))

theorem ban_ae_compress (hp : HParamsG) :
    ∀ x ∈ ae_compress_trace hp, banP x :=
  ban_append
    (ban_append
      (ban_append
        (ban_append (by decide) (ban_compress hp.num_compress_steps))
        (by decide))
      (by decide))
    (by decide)

theorem ban_ae_decompress (hp : HParamsG) :
    ∀ x ∈ ae_decompress_trace hp, banP x := by
  have hbody : ∀ x ∈ residual_conv_trace 1 ++ decompress_step_trace hp.is_2d,
      banP x := by
    cases hb : hp.is_2d <;> decide
  have htail : ∀ x ∈ (if hp.is_2d then [Op.denseLayer] else decode_trace),
      banP x := by
    cases hb : hp.is_2d <;> decide
  exact ban_append
    (ban_append (by decide)
      (repList_forall banP hp.num_compress_steps _ hbody))
    htail

/-- C2 counterexample: with the default four compression steps, in
training mode for a 1d problem, the computation graph built by
ae_transformer_internal contains no application of dae and no application
of vae, refuting the claim that every call applies one of them. -/
theorem C2_counterexample :
    ¬ (Op.daeOp ∈ ae_transformer_internal_trace ⟨4, false, TMode.train⟩
      ∨ Op.vaeOp ∈ ae_transformer_internal_trace ⟨4, false, TMode.train⟩) := by
  decide

/-- C2 amended: for every hyperparameter setting, the graph built by
ae_transformer_internal applies neither dae nor vae; the latent path it
does wire into the encoder/decoder transformer stack is the kmeans vector
quantization together with the annealed mix and the transformer encoder
and decoder.  dae and vae are defined in the module but not called. -/
theorem C2_graph_ops (hp : HParamsG) :
    (∀ x ∈ ae_transformer_internal_trace hp, x ≠ Op.daeOp ∧ x ≠ Op.vaeOp)
    ∧ Op.kmeansOp ∈ ae_transformer_internal_trace hp
    ∧ Op.mixOp ∈ ae_transformer_internal_trace hp
    ∧ Op.transformerEncoderOp ∈ ae_transformer_internal_trace hp
    ∧ Op.transformerDecoderOp ∈ ae_transformer_internal_trace hp := by
  refine ⟨?_, ?_, ?_, ?_, ?_⟩
  · unfold ae_transformer_internal_trace
    refine ban_append
      (ban_append
        (ban_append
          (ban_append
            (ban_append
              (ban_append
                (ban_append (by decide) (by decide))
                (ban_ae_compress hp))
              (by decide))
            (by decide))
          (by decide))
        ?_)
      (ban_ae_decompress hp)
    cases hm : hp.mode <;> decide
  · simp [ae_transformer_internal_trace, ae_compress_trace, kmeans_trace,
      List.mem_append]
  · simp [ae_transformer_internal_trace, ae_decompress_trace,
      List.mem_append]
  · simp [ae_transformer_internal_trace, encode_trace, List.mem_append]
  · simp [ae_transformer_internal_trace, decode_trace, List.mem_append]

/-- C2 witness: at the default hyperparameters the first operation of the
trace is not dae and not vae, and the kmeans quantization is in the
graph. -/
theorem C2_graph_ops_witness :
    (Op.padToSameLength ≠ Op.daeOp ∧ Op.padToSameLength ≠ Op.vaeOp)
    ∧ Op.kmeansOp ∈ ae_transformer_internal_trace ⟨4, false, TMode.train⟩ :=
  ⟨(C2_graph_ops ⟨4, false, TMode.train⟩).1 Op.padToSameLength (by decide),
   (C2_graph_ops ⟨4, false, TMode.train⟩).2.1⟩

/-- C6 witness: a concrete one-hot input over two codes and one hidden
unit on which the two paths agree. -/
theorem C6_witness :
    ae_embed_matmul (fun _ : Fin 1 => oneHot (0 : Fin 2))
        (fun (i : Fin 2) (_ : Fin 1) => if i = 0 then (2 : ℝ) else 3)
      = kmeans_gather (fun _ : Fin 1 => oneHot (0 : Fin 2))
        (fun (i : Fin 2) (_ : Fin 1) => if i = 0 then (2 : ℝ) else 3) :=
  C6_ae_embed_matmul_eq_gather _ _ (fun _ => ⟨0, rfl⟩)

end TVAE
